import Mathlib

/-!
Verification of the self-contained utility layer of tglobal.cpp:
the block-chunked LZ4 stream codec (Tf lz4Compress / Tf lz4Uncompress)
and the pseudorandom number services (Tf srandXor128 / Tf randXor128 /
Tf random).

Bytes are modelled as natural numbers below 256 inside plain lists.
The external LZ4 primitives (LZ4_compressBound, LZ4_compress_fast,
LZ4_decompress_safe) are an external collaborator of the repository; they
are modelled as an abstract BlockCodec record, with the contract the code
relies on captured by the GoodCodec predicate.

The per-block loops of the codec are written with an explicit fuel
argument that starts at the length of the remaining input; the loop body
consumes at least one byte per iteration, so the fuel never runs out on
the cases the source can reach (the fuel-zero branch on a nonempty list
is unreachable and only makes the recursion structural, hence
kernel-computable).
-/

/-- LZ4_BLOCKSIZE from tglobal.cpp: constexpr int LZ4_BLOCKSIZE = 1024 * 1024. -/
def LZ4_BLOCKSIZE : Nat := 1024 * 1024

/-- The abstract block compressor (external collaborator).
bound models LZ4_compressBound.
compress src level models LZ4_compress_fast: some out means the primitive
returned a positive count and wrote out (length = returned value); none
models a non-positive return.
decompress src models LZ4_decompress_safe with destination capacity
LZ4_BLOCKSIZE: some out means the primitive returned a count of out.length
written bytes (possibly zero); none models a negative error code. -/
structure BlockCodec where
  bound : Int → Int
  compress : List Nat → Int → Option (List Nat)
  decompress : List Nat → Option (List Nat)

/-- The internal compress lambda of Tf lz4Compress: the resulting buffer
holds the compressed bytes on success, and is empty when the source range
is empty or LZ4_compress_fast reported an error. -/
def compressBlock (c : BlockCodec) (src : List Nat) (level : Int) : List Nat :=
  if 0 < src.length then
    match c.compress src level with
    | some out => out
    | none => []
  else []

/-- Little-endian bytes written for the record header by
dsout << (int)buffer.length() (QDataStream, little endian byte order). -/
def le32 (n : Nat) : List Nat :=
  [n % 256, n / 256 % 256, n / 65536 % 256, n / 16777216 % 256]

/-- The 4-byte little-endian signed int read performed by dsin >> srclen
at the current cursor. QDataStream yields 0 when fewer than 4 bytes
remain. -/
def readLE32S (bs : List Nat) : Int :=
  match bs with
  | b0 :: b1 :: b2 :: b3 :: _ =>
    let u := b0 % 256 + 256 * (b1 % 256) + 65536 * (b2 % 256) +
      16777216 * (b3 % 256)
    if u < 2147483648 then (u : Int) else (u : Int) - 4294967296
  | _ => 0

/-- The while loop of Tf lz4Compress over the bytes not yet read.
On each pass it takes datalen = min remaining LZ4_BLOCKSIZE bytes,
compresses them, and either appends header and payload or aborts; none
models the ret.clear(); break abort path. -/
def cgoAux (c : BlockCodec) (level : Int) : Nat → List Nat → Option (List Nat)
  | _, [] => some []
  | 0, _ :: _ => none
  | Nat.succ fuel, r :: rs =>
    let rem := r :: rs
    let datalen := min rem.length LZ4_BLOCKSIZE
    let buffer := compressBlock c (rem.take datalen) level
    if buffer = [] then none
    else
      match cgoAux c level fuel (rem.drop datalen) with
      | some tail => some (le32 buffer.length ++ buffer ++ tail)
      | none => none

/-- The compression loop at its entry point. -/
def cgo (c : BlockCodec) (level : Int) (rem : List Nat) : Option (List Nat) :=
  cgoAux c level rem.length rem

/-- Tf lz4Compress(const char *data, int nbytes, int compressionLevel):
the early return on LZ4_compressBound(nbytes) < 1, then the block loop;
the abort path collapses the whole result to the empty byte array.
The list data holds the nbytes bytes the caller hands in. -/
def lz4Compress (c : BlockCodec) (data : List Nat) (nbytes : Int)
    (level : Int) : List Nat :=
  if c.bound nbytes < 1 then []
  else
    match cgo c level (data.take nbytes.toNat) with
    | some s => s
    | none => []

/-- Tf lz4Compress(const QByteArray &data, int compressionLevel). -/
def lz4CompressBA (c : BlockCodec) (data : List Nat) (level : Int) : List Nat :=
  lz4Compress c data data.length level

/-- Number of invocations of the block compressor performed by
Tf lz4Compress, mirroring the loop structure of cgoAux. -/
def cgoCallsAux (c : BlockCodec) (level : Int) : Nat → List Nat → Nat
  | _, [] => 0
  | 0, _ :: _ => 0
  | Nat.succ fuel, r :: rs =>
    let rem := r :: rs
    let datalen := min rem.length LZ4_BLOCKSIZE
    let buffer := compressBlock c (rem.take datalen) level
    if buffer = [] then 1 else 1 + cgoCallsAux c level fuel (rem.drop datalen)

/-- Number of block-compressor invocations of a full Tf lz4Compress call. -/
def lz4CompressCalls (c : BlockCodec) (data : List Nat) (nbytes : Int)
    (level : Int) : Nat :=
  if c.bound nbytes < 1 then 0
  else cgoCallsAux c level (data.take nbytes.toNat).length (data.take nbytes.toNat)

/-- The while loop of Tf lz4Uncompress over the bytes not yet read:
read a 4-byte little-endian length, validate 0 < srclen and
srclen <= LZ4_compressBound(LZ4_BLOCKSIZE), decompress the next srclen
bytes (a declared length running past the end of the buffer is modelled
by the truncated take), append, advance; none models the
ret.clear(); break abort path. -/
def ugoAux (c : BlockCodec) : Nat → List Nat → Option (List Nat)
  | _, [] => some []
  | 0, _ :: _ => none
  | Nat.succ fuel, r :: rs =>
    let rem := r :: rs
    let srclen := readLE32S rem
    if srclen ≤ 0 ∨ c.bound (LZ4_BLOCKSIZE : Int) < srclen then none
    else
      match c.decompress ((rem.drop 4).take srclen.toNat) with
      | some out =>
        if out = [] then none
        else
          match ugoAux c fuel (rem.drop (4 + srclen.toNat)) with
          | some tail => some (out ++ tail)
          | none => none
      | none => none

/-- The decompression loop at its entry point. -/
def ugoD (c : BlockCodec) (rem : List Nat) : Option (List Nat) :=
  ugoAux c rem.length rem

/-- Tf lz4Uncompress on a buffer of nbytes = data.length bytes (the
QByteArray overload; the char pointer overload passes its length along). -/
def lz4Uncompress (c : BlockCodec) (data : List Nat) : List Nat :=
  match ugoD c data with
  | some s => s
  | none => []

/-- The partition of the input into the plaintext blocks the compress
loop walks through: full LZ4_BLOCKSIZE slices, last one possibly shorter. -/
def chunksAux : Nat → List Nat → List (List Nat)
  | _, [] => []
  | 0, _ :: _ => []
  | Nat.succ fuel, r :: rs =>
    (r :: rs).take LZ4_BLOCKSIZE :: chunksAux fuel ((r :: rs).drop LZ4_BLOCKSIZE)

/-- The block partition at its entry point. -/
def chunks (d : List Nat) : List (List Nat) :=
  chunksAux d.length d

/-- A record of the wire format: 4-byte little-endian length then payload. -/
def record (p : List Nat) : List Nat :=
  le32 p.length ++ p

/-- The contract of the external block compressor that the codec relies
on (satisfied by LZ4): the bound of the block size is a representable
positive int, a compressed block is no longer than the bound of the block
size, and decompression inverts compression on blocks of at most
LZ4_BLOCKSIZE bytes. -/
structure GoodCodec (c : BlockCodec) : Prop where
  bound_lt : c.bound (LZ4_BLOCKSIZE : Int) < 2147483648
  comp_le : ∀ src level out, src.length ≤ LZ4_BLOCKSIZE →
    c.compress src level = some out →
    (out.length : Int) ≤ c.bound (LZ4_BLOCKSIZE : Int)
  rt : ∀ src level out, src ≠ [] → src.length ≤ LZ4_BLOCKSIZE →
    c.compress src level = some out → c.decompress out = some src

/-- A concrete contract-satisfying instantiation of the block codec used
to evaluate the embedding on explicit inputs: compression is the
identity. -/
def identityCodec : BlockCodec :=
  ⟨fun n => n + 16, fun src _ => some src, fun src => some src⟩

/-- A block codec whose compress primitive always reports failure. -/
def failCodec : BlockCodec :=
  ⟨fun n => n + 16, fun _ _ => none, fun src => some src⟩

section XorShift

/-- The four 32-bit state words x, y, z, w of the xorshift generator in
tglobal.cpp. -/
structure XorState where
  x : Nat
  y : Nat
  z : Nat
  w : Nat
deriving DecidableEq

/-- Tf srandXor128(quint32 seed): w = seed; z = w xor (w >> 8) xor (w << 5);
x and y are left as they were. Arithmetic is on 32-bit words, so the left
shift wraps modulo 2 to the 32. -/
def srandXor128 (seed : Nat) (s : XorState) : XorState :=
  let w := seed % 4294967296
  let z := w ^^^ (w >>> 8) ^^^ ((w <<< 5) % 4294967296)
  ⟨s.x, s.y, z, w⟩

/-- Tf randXor128(): t = x xor (x << 11); x = y; y = z; z = w;
w = w xor (w >> 19) xor (t xor (t >> 8)); returns the new w. -/
def randXor128 (s : XorState) : Nat × XorState :=
  let t := s.x ^^^ ((s.x <<< 11) % 4294967296)
  let w := s.w ^^^ (s.w >>> 19) ^^^ (t ^^^ (t >>> 8))
  (w, ⟨s.y, s.z, s.w, w⟩)

/-- The n-th value of the sequence of randXor128 outputs from state s. -/
def randStreamNth (s : XorState) : Nat → Nat
  | 0 => (randXor128 s).1
  | Nat.succ n => randStreamNth (randXor128 s).2 n

end XorShift

section RandomRange

/-- Modelled from the spec: std uniform_int_distribution over
[lo, hi] fed one draw g of the 64-bit generator, which the spec describes
as a value uniformly distributed over [min, max] inclusive; the draw is
mapped into the range as lo + g % (hi - lo + 1). The mt19937_64 generator
itself is entropy-seeded and external, so the draw is a parameter. -/
def uniformIntDraw (lo hi g : Nat) : Nat :=
  lo + g % (hi - lo + 1)

/-- Tf random(uint64_t min, uint64_t max): constructs the uniform
distribution over [lo, hi] and returns one draw from the locked 64-bit
generator, whose output is abstracted as g. -/
def tfRandom (g lo hi : Nat) : Nat :=
  uniformIntDraw lo hi g

/-- Tf random(uint64_t max): return random(0, max). -/
def tfRandom1 (g hi : Nat) : Nat :=
  tfRandom g 0 hi

/-- Tf random(min, max) with its error channel made explicit: the source
body has no branch on its arguments at all, so every call reaches the
distribution draw; none would model an explicit synchronous rejection,
which does not exist in the code. -/
def tfRandomE (g lo hi : Nat) : Option Nat :=
  some (uniformIntDraw lo hi g)

end RandomRange

/-! Basic facts about the building blocks. -/

theorem LZ4_BLOCKSIZE_pos : 0 < LZ4_BLOCKSIZE := by
  norm_num [LZ4_BLOCKSIZE]

theorem le32_length (n : Nat) : (le32 n).length = 4 := rfl

theorem take_min_len {α : Type _} (l : List α) (n : Nat) :
    l.take (min l.length n) = l.take n := by
  rcases Nat.le_total l.length n with h | h
  · rw [min_eq_left h, List.take_length, List.take_of_length_le h]
  · rw [min_eq_right h]

theorem drop_min_len {α : Type _} (l : List α) (n : Nat) :
    l.drop (min l.length n) = l.drop n := by
  rcases Nat.le_total l.length n with h | h
  · rw [min_eq_left h, List.drop_length, List.drop_eq_nil_of_le h]
  · rw [min_eq_right h]

theorem readLE32S_le32 (n : Nat) (rest : List Nat) (h : n < 2147483648) :
    readLE32S (le32 n ++ rest) = (n : Int) := by
  have hu : n % 256 % 256 + 256 * (n / 256 % 256 % 256) +
      65536 * (n / 65536 % 256 % 256) +
      16777216 * (n / 16777216 % 256 % 256) = n := by
    omega
  simp only [le32, List.cons_append, List.nil_append, readLE32S]
  rw [hu, if_pos h]

theorem readLE32S_append_len4 (b rest : List Nat) (hb : b.length = 4) :
    readLE32S (b ++ rest) = readLE32S b := by
  match b, hb with
  | [b0, b1, b2, b3], _ => rfl

theorem cgoAux_nil (c : BlockCodec) (level : Int) (fuel : Nat) :
    cgoAux c level fuel [] = some [] := by
  cases fuel <;> rfl

theorem ugoAux_nil (c : BlockCodec) (fuel : Nat) :
    ugoAux c fuel [] = some [] := by
  cases fuel <;> rfl

theorem chunksAux_nil (fuel : Nat) : chunksAux fuel [] = [] := by
  cases fuel <;> rfl

theorem chunksAux_irrel :
    ∀ fuel₁ fuel₂ (d : List Nat), d.length ≤ fuel₁ → d.length ≤ fuel₂ →
      chunksAux fuel₁ d = chunksAux fuel₂ d := by
  intro fuel₁
  induction fuel₁ with
  | zero =>
    intro fuel₂ d h₁ _
    have hd : d = [] := List.eq_nil_of_length_eq_zero (Nat.le_zero.mp h₁)
    subst hd
    simp [chunksAux_nil]
  | succ fuel ih =>
    intro fuel₂ d h₁ h₂
    match d, fuel₂ with
    | [], _ => simp [chunksAux_nil]
    | r :: rs, 0 => simp at h₂
    | r :: rs, Nat.succ f₂ =>
      simp only [chunksAux]
      congr 1
      apply ih
      · have hB := LZ4_BLOCKSIZE_pos
        simp only [List.length_drop, List.length_cons] at h₁ ⊢
        omega
      · have hB := LZ4_BLOCKSIZE_pos
        simp only [List.length_drop, List.length_cons] at h₂ ⊢
        omega

theorem cgoAux_irrel (c : BlockCodec) (level : Int) :
    ∀ fuel₁ fuel₂ (d : List Nat), d.length ≤ fuel₁ → d.length ≤ fuel₂ →
      cgoAux c level fuel₁ d = cgoAux c level fuel₂ d := by
  intro fuel₁
  induction fuel₁ with
  | zero =>
    intro fuel₂ d h₁ _
    have hd : d = [] := List.eq_nil_of_length_eq_zero (Nat.le_zero.mp h₁)
    subst hd
    simp [cgoAux_nil]
  | succ fuel ih =>
    intro fuel₂ d h₁ h₂
    match d, fuel₂ with
    | [], _ => simp [cgoAux_nil]
    | r :: rs, 0 => simp at h₂
    | r :: rs, Nat.succ f₂ =>
      simp only [cgoAux]
      have hrec : cgoAux c level fuel
            ((r :: rs).drop (min (r :: rs).length LZ4_BLOCKSIZE)) =
          cgoAux c level f₂
            ((r :: rs).drop (min (r :: rs).length LZ4_BLOCKSIZE)) := by
        apply ih
        · have hB := LZ4_BLOCKSIZE_pos
          simp only [List.length_drop, List.length_cons] at h₁ ⊢
          omega
        · have hB := LZ4_BLOCKSIZE_pos
          simp only [List.length_drop, List.length_cons] at h₂ ⊢
          omega
      rw [hrec]

theorem ugoAux_irrel (c : BlockCodec) :
    ∀ fuel₁ fuel₂ (d : List Nat), d.length ≤ fuel₁ → d.length ≤ fuel₂ →
      ugoAux c fuel₁ d = ugoAux c fuel₂ d := by
  intro fuel₁
  induction fuel₁ with
  | zero =>
    intro fuel₂ d h₁ _
    have hd : d = [] := List.eq_nil_of_length_eq_zero (Nat.le_zero.mp h₁)
    subst hd
    simp [ugoAux_nil]
  | succ fuel ih =>
    intro fuel₂ d h₁ h₂
    match d, fuel₂ with
    | [], _ => simp [ugoAux_nil]
    | r :: rs, 0 => simp at h₂
    | r :: rs, Nat.succ f₂ =>
      simp only [ugoAux]
      have hrec : ugoAux c fuel
            ((r :: rs).drop (4 + (readLE32S (r :: rs)).toNat)) =
          ugoAux c f₂
            ((r :: rs).drop (4 + (readLE32S (r :: rs)).toNat)) := by
        apply ih
        · simp only [List.length_drop, List.length_cons] at h₁ ⊢
          omega
        · simp only [List.length_drop, List.length_cons] at h₂ ⊢
          omega
      rw [hrec]

theorem chunks_cons (d : List Nat) (hd : d ≠ []) :
    chunks d = d.take LZ4_BLOCKSIZE :: chunks (d.drop LZ4_BLOCKSIZE) := by
  match d with
  | r :: rs =>
    show chunksAux (rs.length + 1) (r :: rs) = _
    simp only [chunksAux, chunks]
    congr 1
    apply chunksAux_irrel
    · have hB := LZ4_BLOCKSIZE_pos
      simp only [List.length_drop, List.length_cons]
      omega
    · exact le_rfl

theorem cgo_cons (c : BlockCodec) (level : Int) (r : Nat) (rs : List Nat) :
    cgo c level (r :: rs) =
      (if compressBlock c ((r :: rs).take LZ4_BLOCKSIZE) level = [] then none
       else
         match cgo c level ((r :: rs).drop LZ4_BLOCKSIZE) with
         | some tail =>
           some (le32 (compressBlock c ((r :: rs).take LZ4_BLOCKSIZE) level).length ++
             compressBlock c ((r :: rs).take LZ4_BLOCKSIZE) level ++ tail)
         | none => none) := by
  show cgoAux c level (rs.length + 1) (r :: rs) = _
  simp only [cgoAux, take_min_len, drop_min_len]
  have hrec : cgoAux c level rs.length ((r :: rs).drop LZ4_BLOCKSIZE) =
      cgo c level ((r :: rs).drop LZ4_BLOCKSIZE) := by
    simp only [cgo]
    apply cgoAux_irrel
    · have hB := LZ4_BLOCKSIZE_pos
      simp only [List.length_drop, List.length_cons]
      omega
    · exact le_rfl
  rw [hrec]

theorem ugoD_cons (c : BlockCodec) (r : Nat) (rs : List Nat) :
    ugoD c (r :: rs) =
      (if readLE32S (r :: rs) ≤ 0 ∨
          c.bound (LZ4_BLOCKSIZE : Int) < readLE32S (r :: rs) then none
       else
         match c.decompress
             (((r :: rs).drop 4).take (readLE32S (r :: rs)).toNat) with
         | some out =>
           if out = [] then none
           else
             match ugoD c ((r :: rs).drop (4 + (readLE32S (r :: rs)).toNat)) with
             | some tail => some (out ++ tail)
             | none => none
         | none => none) := by
  show ugoAux c (rs.length + 1) (r :: rs) = _
  simp only [ugoAux]
  have hrec : ugoAux c rs.length
        ((r :: rs).drop (4 + (readLE32S (r :: rs)).toNat)) =
      ugoD c ((r :: rs).drop (4 + (readLE32S (r :: rs)).toNat)) := by
    simp only [ugoD]
    apply ugoAux_irrel
    · simp only [List.length_drop, List.length_cons]
      omega
    · exact le_rfl
  rw [hrec]

/-! Structure of the block partition. -/

theorem chunks_flatten_aux :
    ∀ n (d : List Nat), d.length ≤ n → (chunks d).flatten = d := by
  intro n
  induction n with
  | zero =>
    intro d h
    have hd : d = [] := List.eq_nil_of_length_eq_zero (Nat.le_zero.mp h)
    subst hd
    rfl
  | succ n ih =>
    intro d h
    by_cases hd : d = []
    · subst hd; rfl
    · have hlen : 0 < d.length := List.length_pos.mpr hd
      have hB := LZ4_BLOCKSIZE_pos
      rw [chunks_cons d hd, List.flatten_cons,
        ih (d.drop LZ4_BLOCKSIZE) (by simp only [List.length_drop]; omega)]
      exact List.take_append_drop _ d

theorem chunks_flatten (d : List Nat) : (chunks d).flatten = d :=
  chunks_flatten_aux d.length d le_rfl

theorem chunks_length_aux :
    ∀ n (d : List Nat), d.length ≤ n →
      (chunks d).length = (d.length + 1048575) / 1048576 := by
  intro n
  induction n with
  | zero =>
    intro d h
    have hd : d = [] := List.eq_nil_of_length_eq_zero (Nat.le_zero.mp h)
    subst hd
    norm_num [show chunks ([] : List Nat) = [] from rfl]
  | succ n ih =>
    intro d h
    by_cases hd : d = []
    · subst hd
      norm_num [show chunks ([] : List Nat) = [] from rfl]
    · have hlen : 0 < d.length := List.length_pos.mpr hd
      have hB := LZ4_BLOCKSIZE_pos
      rw [chunks_cons d hd, List.length_cons,
        ih (d.drop LZ4_BLOCKSIZE) (by simp only [List.length_drop]; omega)]
      simp only [List.length_drop, LZ4_BLOCKSIZE]
      omega

theorem chunks_length (d : List Nat) :
    (chunks d).length = (d.length + 1048575) / 1048576 :=
  chunks_length_aux d.length d le_rfl

theorem chunks_mem_aux :
    ∀ n (d : List Nat), d.length ≤ n →
      ∀ blk ∈ chunks d, 0 < blk.length ∧ blk.length ≤ LZ4_BLOCKSIZE := by
  intro n
  induction n with
  | zero =>
    intro d h
    have hd : d = [] := List.eq_nil_of_length_eq_zero (Nat.le_zero.mp h)
    subst hd
    intro blk hblk
    simp [show chunks ([] : List Nat) = [] from rfl] at hblk
  | succ n ih =>
    intro d h
    by_cases hd : d = []
    · subst hd
      intro blk hblk
      simp [show chunks ([] : List Nat) = [] from rfl] at hblk
    · have hlen : 0 < d.length := List.length_pos.mpr hd
      have hB := LZ4_BLOCKSIZE_pos
      intro blk hblk
      rw [chunks_cons d hd] at hblk
      rcases List.mem_cons.mp hblk with rfl | htl
      · constructor
        · simp only [List.length_take]
          omega
        · simp only [List.length_take]
          omega
      · exact ih (d.drop LZ4_BLOCKSIZE)
          (by simp only [List.length_drop]; omega) blk htl

theorem chunks_mem (d : List Nat) :
    ∀ blk ∈ chunks d, 0 < blk.length ∧ blk.length ≤ LZ4_BLOCKSIZE :=
  chunks_mem_aux d.length d le_rfl

theorem chunks_dropLast_aux :
    ∀ n (d : List Nat), d.length ≤ n →
      ∀ blk ∈ (chunks d).dropLast, blk.length = LZ4_BLOCKSIZE := by
  intro n
  induction n with
  | zero =>
    intro d h
    have hd : d = [] := List.eq_nil_of_length_eq_zero (Nat.le_zero.mp h)
    subst hd
    intro blk hblk
    simp [show chunks ([] : List Nat) = [] from rfl] at hblk
  | succ n ih =>
    intro d h
    by_cases hd : d = []
    · subst hd
      intro blk hblk
      simp [show chunks ([] : List Nat) = [] from rfl] at hblk
    · have hlen : 0 < d.length := List.length_pos.mpr hd
      have hB := LZ4_BLOCKSIZE_pos
      rw [chunks_cons d hd]
      rcases h2 : chunks (d.drop LZ4_BLOCKSIZE) with _ | ⟨c1, cl⟩
      · intro blk hblk
        simp at hblk
      · intro blk hblk
        rw [List.dropLast_cons₂] at hblk
        have hne : d.drop LZ4_BLOCKSIZE ≠ [] := by
          intro h0
          rw [h0, show chunks ([] : List Nat) = [] from rfl] at h2
          exact List.cons_ne_nil c1 cl h2.symm
        have hgt : LZ4_BLOCKSIZE < d.length := by
          have := List.length_pos.mpr hne
          simp only [List.length_drop] at this
          omega
        rcases List.mem_cons.mp hblk with rfl | htl
        · simp only [List.length_take]
          omega
        · exact ih (d.drop LZ4_BLOCKSIZE)
            (by simp only [List.length_drop]; omega) blk (by rw [h2]; exact htl)

theorem chunks_dropLast (d : List Nat) :
    ∀ blk ∈ (chunks d).dropLast, blk.length = LZ4_BLOCKSIZE :=
  chunks_dropLast_aux d.length d le_rfl

/-! Behavior of the compression loop. -/

theorem cgo_success_aux (c : BlockCodec) (level : Int) :
    ∀ n (d : List Nat), d.length ≤ n →
      (∀ blk ∈ chunks d, ∃ out, c.compress blk level = some out ∧ out ≠ []) →
      ∃ ps, List.Forall₂
          (fun blk p => c.compress blk level = some p ∧ p ≠ []) (chunks d) ps ∧
        cgo c level d = some ((ps.map record).flatten) := by
  intro n
  induction n with
  | zero =>
    intro d h _
    have hd : d = [] := List.eq_nil_of_length_eq_zero (Nat.le_zero.mp h)
    subst hd
    exact ⟨[], by
      rw [show chunks ([] : List Nat) = [] from rfl]
      exact List.Forall₂.nil, rfl⟩
  | succ n ih =>
    intro d h hs
    by_cases hd : d = []
    · subst hd
      exact ⟨[], by
      rw [show chunks ([] : List Nat) = [] from rfl]
      exact List.Forall₂.nil, rfl⟩
    · have hlen : 0 < d.length := List.length_pos.mpr hd
      have hB := LZ4_BLOCKSIZE_pos
      have hmem : d.take LZ4_BLOCKSIZE ∈ chunks d := by
        rw [chunks_cons d hd]
        exact List.mem_cons_self _ _
      obtain ⟨out, hco, hone⟩ := hs _ hmem
      obtain ⟨ps, hF, hcg⟩ := ih (d.drop LZ4_BLOCKSIZE)
        (by simp only [List.length_drop]; omega)
        (fun blk hblk => hs blk
          (by rw [chunks_cons d hd]; exact List.mem_cons_of_mem _ hblk))
      refine ⟨out :: ps, ?_, ?_⟩
      · rw [chunks_cons d hd]
        exact List.Forall₂.cons ⟨hco, hone⟩ hF
      · obtain ⟨r, rs, rfl⟩ : ∃ r rs, d = r :: rs := by
          match d, hd with
          | r :: rs, _ => exact ⟨r, rs, rfl⟩
        rw [cgo_cons]
        have hcb : compressBlock c ((r :: rs).take LZ4_BLOCKSIZE) level = out := by
          simp only [compressBlock]
          rw [if_pos (by simp only [List.length_take, List.length_cons]; omega),
            hco]
        rw [hcb, if_neg hone, hcg]
        simp only [List.map_cons, List.flatten_cons, record]

theorem cgo_fail_aux (c : BlockCodec) (level : Int) :
    ∀ n (d : List Nat), d.length ≤ n →
      (∃ blk ∈ chunks d, compressBlock c blk level = []) →
      cgo c level d = none := by
  intro n
  induction n with
  | zero =>
    intro d h hex
    have hd : d = [] := List.eq_nil_of_length_eq_zero (Nat.le_zero.mp h)
    subst hd
    obtain ⟨blk, hmem, _⟩ := hex
    simp [show chunks ([] : List Nat) = [] from rfl] at hmem
  | succ n ih =>
    intro d h hex
    by_cases hd : d = []
    · subst hd
      obtain ⟨blk, hmem, _⟩ := hex
      simp [show chunks ([] : List Nat) = [] from rfl] at hmem
    · have hlen : 0 < d.length := List.length_pos.mpr hd
      have hB := LZ4_BLOCKSIZE_pos
      obtain ⟨blk, hmem, hfail⟩ := hex
      rw [chunks_cons d hd] at hmem
      obtain ⟨r, rs, rfl⟩ : ∃ r rs, d = r :: rs := by
        match d, hd with
        | r :: rs, _ => exact ⟨r, rs, rfl⟩
      rw [cgo_cons]
      rcases List.mem_cons.mp hmem with rfl | htl
      · rw [if_pos hfail]
      · by_cases hbuf : compressBlock c ((r :: rs).take LZ4_BLOCKSIZE) level = []
        · rw [if_pos hbuf]
        · rw [if_neg hbuf,
            ih ((r :: rs).drop LZ4_BLOCKSIZE)
              (by simp only [List.length_drop, List.length_cons] at h ⊢; omega)
              ⟨blk, htl, hfail⟩]

/-! Behavior of the decompression loop. -/

theorem ugoD_le32 (c : BlockCodec) (n : Nat) (t : List Nat)
    (hn : n < 2147483648) :
    ugoD c (le32 n ++ t) =
      (if (n : Int) ≤ 0 ∨ c.bound (LZ4_BLOCKSIZE : Int) < (n : Int) then none
       else
         match c.decompress (t.take n) with
         | some out =>
           if out = [] then none
           else
             match ugoD c (t.drop n) with
             | some tail => some (out ++ tail)
             | none => none
         | none => none) := by
  have hL : le32 n ++ t = (n % 256) :: (n / 256 % 256) :: (n / 65536 % 256) ::
      (n / 16777216 % 256) :: t := rfl
  have hread : readLE32S ((n % 256) :: (n / 256 % 256) :: (n / 65536 % 256) ::
      (n / 16777216 % 256) :: t) = (n : Int) := by
    rw [← hL]
    exact readLE32S_le32 n t hn
  have hd4 : ((n % 256) :: (n / 256 % 256) :: (n / 65536 % 256) ::
      (n / 16777216 % 256) :: t).drop 4 = t := rfl
  rw [hL, ugoD_cons, hread, Int.toNat_natCast, hd4]
  have hd4n : ((n % 256) :: (n / 256 % 256) :: (n / 65536 % 256) ::
      (n / 16777216 % 256) :: t).drop (4 + n) = t.drop n := by
    rw [← List.drop_drop, hd4]
  rw [hd4n]

theorem ugoD_records (c : BlockCodec) (g : GoodCodec c) (level : Int) :
    ∀ {bs ps : List (List Nat)},
      List.Forall₂ (fun blk p => c.compress blk level = some p ∧ p ≠ []) bs ps →
      (∀ blk ∈ bs, 0 < blk.length ∧ blk.length ≤ LZ4_BLOCKSIZE) →
      ugoD c ((ps.map record).flatten) = some bs.flatten := by
  intro bs ps hF
  induction hF with
  | nil =>
    intro _
    rfl
  | @cons blk p bs' ps' hbp hF' ih =>
    intro hmem
    obtain ⟨hcomp, hpne⟩ := hbp
    have hblk := hmem blk (List.mem_cons_self _ _)
    have hp1 : 0 < p.length := List.length_pos.mpr hpne
    have hp2 : (p.length : Int) ≤ c.bound (LZ4_BLOCKSIZE : Int) :=
      g.comp_le blk level p hblk.2 hcomp
    have hbne : blk ≠ [] := List.length_pos.mp hblk.1
    have hdec : c.decompress p = some blk := g.rt blk level p hbne hblk.2 hcomp
    have hplt : p.length < 2147483648 := by
      have hbl := g.bound_lt
      omega
    simp only [List.map_cons, List.flatten_cons, record, List.append_assoc]
    rw [ugoD_le32 c p.length (p ++ (List.map record ps').flatten) hplt]
    rw [if_neg (by push_neg; exact ⟨by exact_mod_cast hp1, hp2⟩)]
    rw [List.take_left, hdec]
    have hdrop : List.drop p.length (p ++ (List.map record ps').flatten) =
        (List.map record ps').flatten := List.drop_left _ _
    rw [hdrop, ih (fun b hb => hmem b (List.mem_cons_of_mem _ hb))]
    simp [hbne]

/-! The identity codec satisfies the block compressor contract. -/

theorem identityGood : GoodCodec identityCodec := by
  constructor
  · norm_num [identityCodec, LZ4_BLOCKSIZE]
  · intro src level out hle hco
    have hso : src = out := by simpa [identityCodec] using hco
    subst hso
    simp only [identityCodec, LZ4_BLOCKSIZE] at *
    push_cast
    omega
  · intro src level out _ _ hco
    have hso : src = out := by simpa [identityCodec] using hco
    subst hso
    rfl

/-- C1: for every byte sequence, every level and every block codec that
satisfies the LZ4 contract, if the bound of the input length is at least
one (no BoundError) and compression of every block succeeds, then
lz4Uncompress of lz4Compress returns the input byte for byte; the empty
sequence is the case chunks data = [] and is included. -/
theorem lz4_roundtrip (c : BlockCodec) (g : GoodCodec c) (data : List Nat)
    (level : Int) (hb : 1 ≤ c.bound (data.length : Int))
    (hs : ∀ blk ∈ chunks data,
      ∃ out, c.compress blk level = some out ∧ out ≠ []) :
    lz4Uncompress c (lz4CompressBA c data level) = data := by
  obtain ⟨ps, hF, hcg⟩ := cgo_success_aux c level data.length data le_rfl hs
  have hcomp : lz4CompressBA c data level = (ps.map record).flatten := by
    simp only [lz4CompressBA, lz4Compress]
    rw [if_neg (by omega), Int.toNat_natCast, List.take_length, hcg]
  rw [hcomp]
  simp only [lz4Uncompress]
  rw [ugoD_records c g level hF (chunks_mem data)]
  exact chunks_flatten data

/-- Witness for C1: the identity codec on the bytes [5, 6, 7] at level 1. -/
theorem lz4_roundtrip_example :
    lz4Uncompress identityCodec (lz4CompressBA identityCodec [5, 6, 7] 1) =
      [5, 6, 7] := by
  apply lz4_roundtrip identityCodec identityGood [5, 6, 7] 1
  · decide
  · intro blk hblk
    rw [show chunks [5, 6, 7] = [[5, 6, 7]] from by decide] at hblk
    have hbe := List.mem_singleton.mp hblk
    subst hbe
    exact ⟨[5, 6, 7], rfl, by decide⟩

/-- C2: the decompression loop has no check that the consumed byte count
matches the declared stream length. On the stream [5,0,0,0,1,2,3], whose
single record declares 5 payload bytes while only 3 remain after the
prefix, the loop hands the truncated remainder to the block decompressor;
with a contract-satisfying codec for which that decompression succeeds
(the identity codec) the call returns the partial output [1,2,3] instead
of detecting the overrun and returning empty. -/
theorem lz4Uncompress_overrun_partial_output :
    lz4Uncompress identityCodec [5, 0, 0, 0, 1, 2, 3] = [1, 2, 3] ∧
      ([1, 2, 3] : List Nat) ≠ [] := by
  decide

/-- C3: whenever the decompression loop reaches a 4-byte little-endian
length prefix whose signed value is zero, negative, or greater than
bound(LZ4_BLOCKSIZE) - here, after any run of well-formed records that
decode successfully - the whole operation aborts and the empty sequence
is returned, discarding all output accumulated for the earlier records. -/
theorem lz4Uncompress_bad_length_rejected (c : BlockCodec) (g : GoodCodec c)
    (ps : List (List Nat))
    (hps : ∀ p ∈ ps, 0 < p.length ∧
      (p.length : Int) ≤ c.bound (LZ4_BLOCKSIZE : Int) ∧
      ∃ out, c.decompress p = some out ∧ out ≠ [])
    (b rest : List Nat) (hb : b.length = 4)
    (hbad : readLE32S b ≤ 0 ∨ c.bound (LZ4_BLOCKSIZE : Int) < readLE32S b) :
    lz4Uncompress c ((ps.map record).flatten ++ (b ++ rest)) = [] := by
  suffices h : ugoD c ((ps.map record).flatten ++ (b ++ rest)) = none by
    simp only [lz4Uncompress, h]
  induction ps with
  | nil =>
    simp only [List.map_nil, List.flatten_nil, List.nil_append]
    obtain ⟨b0, b1, b2, b3, hb4⟩ : ∃ b0 b1 b2 b3, b = [b0, b1, b2, b3] := by
      match b, hb with
      | [x0, x1, x2, x3], _ => exact ⟨x0, x1, x2, x3, rfl⟩
    subst hb4
    rw [show ([b0, b1, b2, b3] ++ rest) = b0 :: b1 :: b2 :: b3 :: rest from rfl,
      ugoD_cons,
      if_pos (by
        rw [show readLE32S (b0 :: b1 :: b2 :: b3 :: rest) =
          readLE32S [b0, b1, b2, b3] from rfl]
        exact hbad)]
  | cons p ps' ih =>
    have hp := hps p (List.mem_cons_self _ _)
    obtain ⟨hp1, hp2, out, hdec, hne⟩ := hp
    have hplt : p.length < 2147483648 := by
      have hbl := g.bound_lt
      omega
    simp only [List.map_cons, List.flatten_cons, record, List.append_assoc]
    rw [ugoD_le32 c p.length _ hplt,
      if_neg (by push_neg; exact ⟨by exact_mod_cast hp1, hp2⟩),
      List.take_left, hdec]
    have hdrop : List.drop p.length
        (p ++ ((List.map record ps').flatten ++ (b ++ rest))) =
        (List.map record ps').flatten ++ (b ++ rest) := List.drop_left _ _
    rw [hdrop]
    have hih := ih (fun q hq => hps q (List.mem_cons_of_mem _ hq))
    simp [hne, hih]

/-- Witness for C3: a lone zero length prefix is rejected with empty
output. -/
theorem lz4Uncompress_bad_length_rejected_example :
    lz4Uncompress identityCodec [0, 0, 0, 0] = [] := by
  have h := lz4Uncompress_bad_length_rejected identityCodec identityGood []
    (by intro p hp; simp at hp) [0, 0, 0, 0] [] rfl (Or.inl (by decide))
  simpa using h

/-- C4: if the block compressor fails on some block of the partition (a
non-positive return, modelled by an empty compressBlock result), the
whole compression collapses to the empty stream; no prefix of records
escapes. -/
theorem lz4Compress_fail_collapses_empty (c : BlockCodec) (data : List Nat)
    (level : Int)
    (hfail : ∃ blk ∈ chunks data, compressBlock c blk level = []) :
    lz4CompressBA c data level = [] := by
  simp only [lz4CompressBA, lz4Compress]
  by_cases hb : c.bound (data.length : Int) < 1
  · rw [if_pos hb]
  · rw [if_neg hb, Int.toNat_natCast, List.take_length,
      cgo_fail_aux c level data.length data le_rfl hfail]

/-- Witness for C4: a codec whose compress primitive always fails. -/
theorem lz4Compress_fail_collapses_empty_example :
    lz4CompressBA failCodec [1, 2] 1 = [] :=
  lz4Compress_fail_collapses_empty failCodec [1, 2] 1
    ⟨[1, 2], by decide, by decide⟩

/-- C5: when every block compresses successfully, the stream is exactly
the concatenation of one length-prefixed record per plaintext block, and
there are ceil(N / 1048576) of them; every block except possibly the last
is exactly 1048576 plaintext bytes, the blocks concatenate back to the
input, and each block is nonempty and at most 1048576 bytes. -/
theorem lz4Compress_block_count (c : BlockCodec) (data : List Nat)
    (level : Int) (_hn : 0 < data.length)
    (hb : 1 ≤ c.bound (data.length : Int))
    (hs : ∀ blk ∈ chunks data,
      ∃ out, c.compress blk level = some out ∧ out ≠ []) :
    ∃ ps : List (List Nat),
      lz4CompressBA c data level = (ps.map record).flatten ∧
      ps.length = (data.length + 1048575) / 1048576 ∧
      List.Forall₂ (fun blk p => c.compress blk level = some p)
        (chunks data) ps ∧
      (chunks data).flatten = data ∧
      (∀ blk ∈ (chunks data).dropLast, blk.length = 1048576) ∧
      (∀ blk ∈ chunks data, 0 < blk.length ∧ blk.length ≤ 1048576) := by
  obtain ⟨ps, hF, hcg⟩ := cgo_success_aux c level data.length data le_rfl hs
  refine ⟨ps, ?_, ?_, ?_, chunks_flatten data, ?_, ?_⟩
  · simp only [lz4CompressBA, lz4Compress]
    rw [if_neg (by omega), Int.toNat_natCast, List.take_length, hcg]
  · rw [← hF.length_eq, chunks_length]
  · exact hF.imp (fun a b h => h.1)
  · intro blk hblk
    have hfull := chunks_dropLast data blk hblk
    simpa [LZ4_BLOCKSIZE] using hfull
  · intro blk hblk
    have hsz := chunks_mem data blk hblk
    simpa [LZ4_BLOCKSIZE] using hsz

/-- Witness for C5: one record for a three-byte input. -/
theorem lz4Compress_block_count_example :
    ∃ ps : List (List Nat),
      lz4CompressBA identityCodec [5, 6, 7] 2 = (ps.map record).flatten ∧
      ps.length = (([5, 6, 7] : List Nat).length + 1048575) / 1048576 ∧
      List.Forall₂ (fun blk p => identityCodec.compress blk 2 = some p)
        (chunks [5, 6, 7]) ps ∧
      (chunks [5, 6, 7]).flatten = [5, 6, 7] ∧
      (∀ blk ∈ (chunks [5, 6, 7]).dropLast, blk.length = 1048576) ∧
      (∀ blk ∈ chunks [5, 6, 7], 0 < blk.length ∧ blk.length ≤ 1048576) := by
  apply lz4Compress_block_count identityCodec [5, 6, 7] 2
  · decide
  · decide
  · intro blk hblk
    rw [show chunks [5, 6, 7] = [[5, 6, 7]] from by decide] at hblk
    have hbe := List.mem_singleton.mp hblk
    subst hbe
    exact ⟨[5, 6, 7], rfl, by decide⟩

/-- C10: a call with nbytes at most zero - zero or negative - returns the
empty stream and never invokes the block compressor, whatever the data
pointer holds: the while loop condition 0 < nbytes is false from the
start, and the early bound return also yields empty. -/
theorem lz4Compress_nonpositive_empty (c : BlockCodec) (data : List Nat)
    (nbytes level : Int) (h : nbytes ≤ 0) :
    lz4Compress c data nbytes level = [] ∧
      lz4CompressCalls c data nbytes level = 0 := by
  have ht : nbytes.toNat = 0 := Int.toNat_of_nonpos h
  constructor
  · simp only [lz4Compress, ht, List.take_zero]
    by_cases hb : c.bound nbytes < 1
    · rw [if_pos hb]
    · rw [if_neg hb]
      rfl
  · simp only [lz4CompressCalls, ht, List.take_zero]
    by_cases hb : c.bound nbytes < 1
    · rw [if_pos hb]
    · rw [if_neg hb]
      rfl

/-- Witness for C10 at a negative length. -/
theorem lz4Compress_nonpositive_example :
    lz4Compress identityCodec [9, 9, 9] (-2) 1 = [] ∧
      lz4CompressCalls identityCodec [9, 9, 9] (-2) 1 = 0 :=
  lz4Compress_nonpositive_empty identityCodec [9, 9, 9] (-2) 1 (by decide)

/-- C6 counterexample: seeding two generators with the same seed does not
erase the dependence on the x and y words left over from before the call;
from the default state and from a state with a different x, both seeded
with 1, the first outputs differ. -/
theorem srandXor128_prior_state_dependence :
    randStreamNth (srandXor128 1 ⟨123456789, 362436069, 987654321, 1⟩) 0 ≠
      randStreamNth (srandXor128 1 ⟨0, 362436069, 987654321, 1⟩) 0 := by
  decide

/-- C6 amended: two generators seeded with the same value produce
identical output sequences provided their x and y state words agree
before the seeding call (in particular two freshly initialized
generators); the seed determines the other two words. -/
theorem srandXor128_determinism_of_xy (s₁ s₂ : XorState) (seed : Nat)
    (hx : s₁.x = s₂.x) (hy : s₁.y = s₂.y) :
    ∀ n, randStreamNth (srandXor128 seed s₁) n =
      randStreamNth (srandXor128 seed s₂) n := by
  have hstate : srandXor128 seed s₁ = srandXor128 seed s₂ := by
    simp [srandXor128, hx, hy]
  intro n
  rw [hstate]

/-- Witness for the amended C6: same x and y, different z and w. -/
theorem srandXor128_determinism_example :
    randStreamNth (srandXor128 42 ⟨1, 2, 3, 4⟩) 5 =
      randStreamNth (srandXor128 42 ⟨1, 2, 99, 100⟩) 5 :=
  srandXor128_determinism_of_xy ⟨1, 2, 3, 4⟩ ⟨1, 2, 99, 100⟩ 42 rfl rfl 5

/-- C7: after srandXor128(seed) the state word w equals the seed, z equals
seed xor (seed >> 8) xor (seed << 5) in 32-bit arithmetic, and x and y
keep their previous values. -/
theorem srandXor128_post (seed : Nat) (s : XorState) (h : seed < 4294967296) :
    (srandXor128 seed s).w = seed ∧
      (srandXor128 seed s).z =
        seed ^^^ (seed >>> 8) ^^^ ((seed <<< 5) % 4294967296) ∧
      (srandXor128 seed s).x = s.x ∧ (srandXor128 seed s).y = s.y := by
  simp [srandXor128, Nat.mod_eq_of_lt h]

/-- Witness for C7 at seed 7 from an arbitrary concrete state. -/
theorem srandXor128_post_example :
    (srandXor128 7 ⟨1, 2, 3, 4⟩).w = 7 ∧
      (srandXor128 7 ⟨1, 2, 3, 4⟩).z =
        7 ^^^ (7 >>> 8) ^^^ ((7 <<< 5) % 4294967296) ∧
      (srandXor128 7 ⟨1, 2, 3, 4⟩).x = 1 ∧
      (srandXor128 7 ⟨1, 2, 3, 4⟩).y = 2 :=
  srandXor128_post 7 ⟨1, 2, 3, 4⟩ (by decide)

/-- C8: for min at most max, every value of Tf random(min, max) lies in
the inclusive range, and the one-argument overload equals random(0, max). -/
theorem random_range_bounds (g lo hi : Nat) (h : lo ≤ hi) :
    lo ≤ tfRandom g lo hi ∧ tfRandom g lo hi ≤ hi ∧
      tfRandom1 g hi = tfRandom g 0 hi := by
  refine ⟨Nat.le_add_right _ _, ?_, rfl⟩
  have hm : g % (hi - lo + 1) < hi - lo + 1 := Nat.mod_lt _ (Nat.succ_pos _)
  simp only [tfRandom, uniformIntDraw]
  omega

/-- Witness for C8 with one draw in the range [2, 5]. -/
theorem random_range_bounds_example :
    2 ≤ tfRandom 13 2 5 ∧ tfRandom 13 2 5 ≤ 5 ∧
      tfRandom1 13 5 = tfRandom 13 0 5 :=
  random_range_bounds 13 2 5 (by decide)

/-- C9: the source Tf random(min, max) has no rejection path: for every
pair of arguments, in particular the failing pair min = 5, max = 3, the
call produces a drawn value instead of an explicit synchronous rejection. -/
theorem random_no_reject :
    (tfRandomE 0 5 3).isSome = true ∧
      ∀ g lo hi : Nat, (tfRandomE g lo hi).isSome = true :=
  ⟨rfl, fun _ _ _ => rfl⟩
